import Mathlib

/-!
Verification development for the `text_sequence_script` repository.

The program is embedded shallowly: JavaScript strings are modelled as `List Char`,
JS `Map` insertion-ordered tables as association lists, fallible file reads as
`Option`, and JS numbers (where fractional values and `NaN` matter) as
`Option ℚ` with `none` standing for `NaN`.  The Unicode character classes
`\p{Letter}\p{Mark}` used by the normalizer's regex, and Unicode lowercasing,
are external tables; they are passed in as parameters `LM : Char → Bool` and
`low : Char → Char`, and theorems assume only facts about them that hold for
the real Unicode tables (for example, letters are not whitespace).
-/

namespace TextSeq

/-- Characters matched by the JavaScript regex class `\s`. -/
def isJsSpace (c : Char) : Bool :=
  c ∈ [' ', '\t', '\n', '\u000B', '\u000C', '\r', '\u00A0', '\u1680',
       '\u2000', '\u2001', '\u2002', '\u2003', '\u2004', '\u2005', '\u2006',
       '\u2007', '\u2008', '\u2009', '\u200A', '\u2028', '\u2029', '\u202F',
       '\u205F', '\u3000', '\uFEFF']

/-- Step `.replace(/[\n]/g, ' ')` of `formatText` (src/index.js:207). -/
def replaceNewlines (l : List Char) : List Char :=
  l.map fun c => if c = '\n' then ' ' else c

/-- Membership in the regex class `[^\p{Letter}\p{Mark}\s ' -]` is the negation of
this predicate; `LM` is the external `\p{Letter}∪\p{Mark}` table. -/
def keepChar (LM : Char → Bool) (c : Char) : Bool :=
  LM c || isJsSpace c || c = ' ' || c = '\'' || c = '-'

/-- Step `.replace(/[^\p{Letter}\p{Mark}\s ' -]/gu, " ")` of `formatText` (src/index.js:208). -/
def removePunct (LM : Char → Bool) (l : List Char) : List Char :=
  l.map fun c => if keepChar LM c then c else ' '

/-- Scanner state for the global regex replace `/\s+'\s+/g → ' '` (src/index.js:209).
`ws pend` holds a pending whitespace run (reversed), `quote pend` means the run was
followed by an apostrophe, `after` consumes the greedy trailing whitespace run of a
match just replaced. -/
inductive ApoState where
  | scan : ApoState
  | ws (pend : List Char) : ApoState
  | quote (pend : List Char) : ApoState
  | after : ApoState

/-- Characters still buffered when the input ends. -/
def apoFlush : ApoState → List Char
  | .scan => []
  | .after => []
  | .ws pend => pend.reverse
  | .quote pend => pend.reverse ++ ['\'']

/-- Left-to-right scanner implementing the global replace `/\s+'\s+/g → ' '`:
on a match the whole matched run is replaced by a single space and scanning
resumes after the (greedily consumed) trailing whitespace run, exactly as the
JS regex engine does. -/
def apoRun : ApoState → List Char → List Char
  | st, [] => apoFlush st
  | .scan, c :: rest =>
    if isJsSpace c then apoRun (.ws [c]) rest else c :: apoRun .scan rest
  | .ws pend, c :: rest =>
    if isJsSpace c then apoRun (.ws (c :: pend)) rest
    else if c = '\'' then apoRun (.quote pend) rest
    else pend.reverse ++ c :: apoRun .scan rest
  | .quote pend, c :: rest =>
    if isJsSpace c then ' ' :: apoRun .after rest
    else pend.reverse ++ '\'' :: c :: apoRun .scan rest
  | .after, c :: rest =>
    if isJsSpace c then apoRun .after rest else c :: apoRun .scan rest

/-- Step `.replace(/\s+'\s+/g, ' ')` of `formatText` (src/index.js:209). -/
def collapseApos (l : List Char) : List Char := apoRun .scan l

/-- Scanner for the global replace `/\s+/g → ' '`; the flag records whether we are
inside a whitespace run whose replacement space was already emitted. -/
def wsRun : Bool → List Char → List Char
  | _, [] => []
  | inRun, c :: rest =>
    if isJsSpace c then
      if inRun then wsRun true rest else ' ' :: wsRun true rest
    else c :: wsRun false rest

/-- Step `.replace(/\s+/g, ' ')` of `formatText` (src/index.js:210). -/
def collapseWs (l : List Char) : List Char := wsRun false l

/-- Step `.trim()` of `formatText` (src/index.js:211): strip leading and trailing
whitespace. -/
def jsTrim (l : List Char) : List Char :=
  ((l.dropWhile isJsSpace).reverse.dropWhile isJsSpace).reverse

/-- Normalizer `formatText` (src/index.js:205-212).  `low` models the external
Unicode `toLowerCase` table (applied characterwise), `LM` the `\p{Letter}∪\p{Mark}`
class used by the punctuation-stripping regex. -/
def formatText (LM : Char → Bool) (low : Char → Char) (l : List Char) : List Char :=
  jsTrim (collapseWs (collapseApos (removePunct LM (replaceNewlines (l.map low)))))

/-- Model of the JavaScript `text.split(" ")`: split on every single space,
keeping empty fragments; the empty string yields `[[]]`. -/
def splitOnSp : List Char → List (List Char)
  | [] => [[]]
  | c :: rest =>
    if c = ' ' then [] :: splitOnSp rest
    else
      match splitOnSp rest with
      | t :: ts => (c :: t) :: ts
      | [] => [[c]]

/-- Model of `sequenceMap.has / get / set` (src/index.js:231-235): increment the
count of key `k`, inserting it with count 1 at the end if absent (JS `Map`
preserves insertion order). -/
def bump (m : List (List Char × Nat)) (k : List Char) : List (List Char × Nat) :=
  if m.any fun p => decide (p.1 = k) then
    m.map fun p => if p.1 = k then (p.1, p.2 + 1) else p
  else m ++ [(k, 1)]

/-- Sliding-window loop of `generateSequenceMap` (src/index.js:223-236): for each
position, if at least three tokens remain, count the 3-token window joined by
single spaces, else stop. -/
def countSequences : List (List Char × Nat) → List (List Char) → List (List Char × Nat)
  | m, a :: b :: c :: rest =>
    countSequences (bump m (a ++ ' ' :: b ++ ' ' :: c)) (b :: c :: rest)
  | m, _ => m

/-- Trigram counter `generateSequenceMap` (src/index.js:219-239). -/
def generateSequenceMap (text : List Char) : List (List Char × Nat) :=
  countSequences [] (splitOnSp text)

/-- Ranker `getTopSequences` (src/index.js:246-248): stable sort of the table's
entries by descending count (JS `Array.prototype.sort` with comparator
`(a, b) => b[1] - a[1]`; stable per ES2019, modelled by `mergeSort`). -/
def getTopSequences (m : List (List Char × Nat)) : List (List Char × Nat) :=
  m.mergeSort fun a b => decide (b.2 ≤ a.2)

/-- Function `analyzeText` (src/index.js:105-108). -/
def analyzeText (text : List Char) : List (List Char × Nat) :=
  getTopSequences (generateSequenceMap text)

/-- Total number of occurrences recorded in a frequency table. -/
def sumCounts (m : List (List Char × Nat)) : Nat :=
  (m.map fun p => p.2).sum

/-- Keys of a frequency table are pairwise distinct (true of every JS `Map`). -/
def KeysNodup (m : List (List Char × Nat)) : Prop :=
  (m.map Prod.fst).Nodup

/-- Work partitioner `splitArrayToNChunks` (src/index.js:188-198): for each
remaining slot take `ceil(remaining / slotsLeft)` items off the front. -/
def splitArrayToNChunks {α : Type} : List α → Nat → List (List α)
  | _, 0 => []
  | rest, n + 1 =>
    rest.take ((rest.length + n) / (n + 1)) ::
      splitArrayToNChunks (rest.drop ((rest.length + n) / (n + 1))) n

/-- Partitioner invoked with a JS number: the loop `for (let i = 0; i < n; i++)`
runs `max(0, n)` times, so a zero or negative chunk count yields no chunks. -/
def splitArrayToNChunksInt {α : Type} (array : List α) (n : Int) : List (List α) :=
  splitArrayToNChunks array n.toNat

/-- Processing modes of the coordinator `main` (src/index.js:50-57). -/
inductive Mode where
  | multiFile : Mode
  | singleFile : Mode
  | streamIn : Mode
deriving DecidableEq

/-- Truthiness of `argv.threads` as a JS number: `undefined` (absent), `NaN`
(`some none`) and `0` are falsy; every other number is truthy. -/
def numTruthy : Option (Option ℚ) → Bool
  | none => false
  | some none => false
  | some (some q) => decide (q ≠ 0)

/-- Mode selection of `main` (src/index.js:45-57): positional input without
`--files` is a usage error; otherwise a present, non-empty file list selects the
parallel path when `argv.threads` is truthy and the single-pass path when not;
with no (non-empty) file list, stdin is read. -/
def selectMode (positional : List (List Char)) (files : Option (List (List Char)))
    (threads : Option (Option ℚ)) : Except String Mode :=
  if positional ≠ [] ∧ files = none then
    .error "Input given without specifying --files (-f) option."
  else if (files.getD []).length > 0 then
    if numTruthy threads then .ok .multiFile else .ok .singleFile
  else .ok .streamIn

/-- JavaScript `Math.round`: round half toward positive infinity. -/
def jsRound (q : ℚ) : Int := ⌊q + 1 / 2⌋

/-- Computation of `THREAD_COUNT` (src/index.js:43): if `argv.threads` is truthy
and not `NaN`, `min(Math.round(argv.threads), MAX_THREADS)`, else 1. -/
def threadCount (threads : Option (Option ℚ)) (maxThreads : Int) : Int :=
  match threads with
  | some (some q) => if q ≠ 0 then min (jsRound q) maxThreads else 1
  | _ => 1

/-- JavaScript `file.endsWith('.txt')` on a filename. -/
def endsWithTxt (name : List Char) : Bool :=
  name.drop (name.length - 4) = ['.', 't', 'x', 't']

/-- Worker unit `processAndAnalyzeFiles` (src/unnamed/part_000): walk the chunk in
order, collecting invalid-extension files and per-file ranked sequence lists; a
failed read of a valid-extension file aborts the whole unit with no partial
result (`read` returns `none`). -/
def processAndAnalyzeFiles (read : List Char → Option (List Char)) (LM : Char → Bool)
    (low : Char → Char) (files : List (List Char)) :
    Option (List (List Char) × List (List Char × List (List Char × Nat))) :=
  files.foldlM
    (fun acc file =>
      if endsWithTxt file then
        (read file).map fun data =>
          (acc.1, acc.2 ++ [(file, analyzeText (formatText LM low data))])
      else some (acc.1 ++ [file], acc.2))
    ([], [])

/-- Coordinator path `processFilesInParallel` (src/index.js:163-180): partition the
files into `threadCount` chunks, run one worker unit per chunk, then concatenate
the per-worker sequence lists (first component) and invalid-file reports (second
component) in chunk dispatch order. -/
def processFilesInParallel (read : List Char → Option (List Char)) (LM : Char → Bool)
    (low : Char → Char) (files : List (List Char)) (tc : Int) :
    Option (List (List Char × List (List Char × Nat)) × List (List Char)) :=
  ((splitArrayToNChunksInt files tc).mapM (processAndAnalyzeFiles read LM low)).map
    fun outs => ((outs.map Prod.snd).flatten, (outs.map Prod.fst).flatten)

/-- Text accumulation of `processFilesAsOne` (src/index.js:136-147), taking each
file as a `(name, contents)` pair: invalid-extension files are skipped, each valid
file contributes a space followed by its normalized text, and the result is
trimmed before analysis. -/
def processFilesAsOneText (LM : Char → Bool) (low : Char → Char)
    (files : List (List Char × List Char)) : List Char :=
  jsTrim (files.foldl
    (fun acc f => if endsWithTxt f.1 then acc ++ ' ' :: formatText LM low f.2 else acc)
    [])

/-- Text accumulation of `processStdIn` (src/index.js:114-128): each stdin line
contributes a space followed by its normalized text, and the result is trimmed. -/
def processStdInText (LM : Char → Bool) (low : Char → Char)
    (lines : List (List Char)) : List Char :=
  jsTrim (lines.foldl (fun acc line => acc ++ ' ' :: formatText LM low line) [])

/-- Guard `if (invalidFiles.length)` (src/index.js:148, 175) controlling whether
the invalid-file report is printed. -/
def invalidReportShown (invalid : List (List Char)) : Bool :=
  invalid.length != 0

/-- Join a token list with single spaces (the shape of Normalized Text, spec §3). -/
def joinTokens : List (List Char) → List Char
  | [] => []
  | [t] => t
  | t :: ts => t ++ ' ' :: joinTokens ts

/-- Token of Normalized Text (spec §3): a nonempty run of letters/marks (per the
external table `LM`), apostrophes, or hyphens, fixed by lowercasing. -/
def GoodToken (LM : Char → Bool) (low : Char → Char) (t : List Char) : Prop :=
  t ≠ [] ∧ ∀ c ∈ t, (LM c = true ∨ c = '\'' ∨ c = '-') ∧ low c = c

/-- Every token except possibly the last differs from the bare apostrophe token. -/
def NotAposExceptLast : List (List Char) → Prop
  | [] => True
  | [_] => True
  | t :: ts => t ≠ ['\''] ∧ NotAposExceptLast ts

/-- No token that has whitespace on both sides (i.e. neither first nor last) is a
bare apostrophe — the "no dangling apostrophe surrounded by whitespace" clause of
the Normalized Text invariant (spec §3). -/
def MidOk : List (List Char) → Prop
  | [] => True
  | _ :: rest => NotAposExceptLast rest

/-- Normalized Text (spec §3): tokens joined by single spaces, lowercase, with no
dangling apostrophe token surrounded by whitespace. -/
def NormalizedText (LM : Char → Bool) (low : Char → Char) (l : List Char) : Prop :=
  ∃ ts : List (List Char),
    (∀ t ∈ ts, GoodToken LM low t) ∧ MidOk ts ∧ l = joinTokens ts

/-- Token count of a text: number of fragments of `split(" ")`, with the empty
text counting as zero tokens. -/
def tokenCount (l : List Char) : Nat :=
  if l = [] then 0 else (splitOnSp l).length

/-- Whitespace characters occurring in the text are all plain spaces. -/
def WsIsSpace (l : List Char) : Prop :=
  ∀ c ∈ l, isJsSpace c = true → c = ' '

/-- No two adjacent whitespace characters (hence no run of 2+ spaces). -/
def SpacedOk (l : List Char) : Prop :=
  List.Chain' (fun a b => ¬(isJsSpace a = true ∧ isJsSpace b = true)) l

/-- No leading and no trailing whitespace character. -/
def NoEdgeWs (l : List Char) : Prop :=
  (∀ c, l.head? = some c → isJsSpace c = false) ∧
    (∀ c, l.getLast? = some c → isJsSpace c = false)

/-! ### Work partitioner: chunk count, coverage and balance -/

theorem splitArrayToNChunks_length {α : Type} :
    ∀ (n : Nat) (l : List α), (splitArrayToNChunks l n).length = n := by
  intro n
  induction n with
  | zero => intro l; rfl
  | succ m ih => intro l; simpa [splitArrayToNChunks] using ih _

theorem splitArrayToNChunks_flatten {α : Type} :
    ∀ (n : Nat) (l : List α), (splitArrayToNChunks l (n + 1)).flatten = l := by
  intro n
  induction n with
  | zero =>
    intro l
    have h : (l.length + 0) / (0 + 1) = l.length := by simp
    simp [splitArrayToNChunks, h]
  | succ m ih =>
    intro l
    have hcons : splitArrayToNChunks l (m + 1 + 1) =
        l.take ((l.length + (m + 1)) / (m + 1 + 1)) ::
          splitArrayToNChunks (l.drop ((l.length + (m + 1)) / (m + 1 + 1)))
            (m + 1) := rfl
    rw [hcons, List.flatten_cons, ih, List.take_append_drop]

theorem splitArrayToNChunks_sizes {α : Type} :
    ∀ (s q r : Nat) (l : List α), r < s → l.length = q * s + r →
      (splitArrayToNChunks l s).map List.length =
        List.replicate r (q + 1) ++ List.replicate (s - r) q := by
  intro s
  induction s with
  | zero => intro q r l hr _; exact absurd hr (Nat.not_lt_zero r)
  | succ n ih =>
    intro q r l hr hl
    have hmul : q * (n + 1) = q * n + q := Nat.mul_succ q n
    have hcons : splitArrayToNChunks l (n + 1) =
        l.take ((l.length + n) / (n + 1)) ::
          splitArrayToNChunks (l.drop ((l.length + n) / (n + 1))) n := rfl
    rcases r with _ | r'
    · have h1 : l.length + n = (n + 1) * q + n := by
        have h2 : (n + 1) * q = q * (n + 1) := Nat.mul_comm _ _
        omega
      have hlen : (l.length + n) / (n + 1) = q := by
        rw [h1, Nat.mul_add_div (by omega),
          Nat.div_eq_of_lt (show n < n + 1 by omega)]
        omega
      have htake : (l.take ((l.length + n) / (n + 1))).length = q := by
        rw [List.length_take, hlen]; omega
      have hdroplen : (l.drop ((l.length + n) / (n + 1))).length = q * n + 0 := by
        rw [List.length_drop, hlen]; omega
      rw [hcons, List.map_cons, htake]
      rcases n with _ | m
      · rfl
      · rw [ih q 0 _ (by omega) hdroplen]
        simp [List.replicate_succ]
    · have h1 : l.length + n = (n + 1) * (q + 1) + r' := by
        have h2 : (n + 1) * (q + 1) = q * (n + 1) + (n + 1) := by ring
        omega
      have hlen : (l.length + n) / (n + 1) = q + 1 := by
        rw [h1, Nat.mul_add_div (by omega),
          Nat.div_eq_of_lt (show r' < n + 1 by omega)]
      have htake : (l.take ((l.length + n) / (n + 1))).length = q + 1 := by
        rw [List.length_take, hlen]; omega
      have hdroplen : (l.drop ((l.length + n) / (n + 1))).length = q * n + r' := by
        rw [List.length_drop, hlen]; omega
      rw [hcons, List.map_cons, htake, ih q r' _ (by omega) hdroplen]
      have hsub : n + 1 - (r' + 1) = n - r' := by omega
      rw [hsub, List.replicate_succ]
      rfl

/-- Claim C2: for every array of N ≥ 0 items and every worker count T ≥ 1,
`splitArrayToNChunks` returns exactly T chunks (empty chunks allowed when T > N)
whose in-order concatenation reproduces the original array exactly, covering
every item exactly once with order preserved. -/
theorem splitArrayToNChunks_roundtrip (α : Type) (array : List α) (T : Nat)
    (hT : 1 ≤ T) :
    (splitArrayToNChunks array T).length = T ∧
      (splitArrayToNChunks array T).flatten = array := by
  obtain ⟨n, rfl⟩ : ∃ n, T = n + 1 := ⟨T - 1, by omega⟩
  exact ⟨splitArrayToNChunks_length _ _, splitArrayToNChunks_flatten _ _⟩

theorem splitArrayToNChunks_roundtrip_witness :
    1 ≤ 3 ∧
      ((splitArrayToNChunks [1, 2, 3, 4, 5] 3).length = 3 ∧
        (splitArrayToNChunks [1, 2, 3, 4, 5] 3).flatten = [1, 2, 3, 4, 5]) :=
  ⟨by decide, splitArrayToNChunks_roundtrip Nat [1, 2, 3, 4, 5] 3 (by decide)⟩

/-- Claim C3: every chunk has size `⌊N/T⌋` or `⌈N/T⌉`, chunk sizes are
non-increasing across slots, the largest and smallest chunk sizes differ by at
most 1, and splitting `[1,2,3,4,5]` into 3 chunks yields `[[1,2],[3,4],[5]]`. -/
theorem splitArrayToNChunks_balance (α : Type) (array : List α) (T : Nat)
    (hT : 1 ≤ T) :
    (∀ c ∈ splitArrayToNChunks array T,
        c.length = array.length / T ∨ c.length = (array.length + T - 1) / T) ∧
      List.Chain' (fun a b : List α => b.length ≤ a.length)
        (splitArrayToNChunks array T) ∧
      (∀ c ∈ splitArrayToNChunks array T, ∀ d ∈ splitArrayToNChunks array T,
        c.length ≤ d.length + 1) ∧
      splitArrayToNChunks [1, 2, 3, 4, 5] 3 = [[1, 2], [3, 4], [5]] := by
  have hmod : array.length % T < T := Nat.mod_lt _ (by omega)
  have hsizes := splitArrayToNChunks_sizes T (array.length / T) (array.length % T)
    array hmod
    (by
      have h1 := Nat.div_add_mod array.length T
      have h2 : T * (array.length / T) = array.length / T * T := Nat.mul_comm _ _
      omega)
  have hmem : ∀ c ∈ splitArrayToNChunks array T,
      c.length = array.length / T ∨
        (c.length = array.length / T + 1 ∧ 1 ≤ array.length % T) := by
    intro c hc
    have : c.length ∈ (splitArrayToNChunks array T).map List.length :=
      List.mem_map_of_mem _ hc
    rw [hsizes] at this
    rcases List.mem_append.mp this with h | h
    · have hr := List.eq_of_mem_replicate h
      have hpos : 0 < array.length % T := by
        by_contra hz
        have : array.length % T = 0 := by omega
        rw [this] at h
        simp at h
      exact Or.inr ⟨hr, hpos⟩
    · exact Or.inl (List.eq_of_mem_replicate h)
  have hceil : 1 ≤ array.length % T →
      (array.length + T - 1) / T = array.length / T + 1 := by
    intro hr
    have h1 : array.length + T - 1 =
        T * (array.length / T + 1) + (array.length % T - 1) := by
      have h2 := Nat.div_add_mod array.length T
      have h3 : T * (array.length / T + 1) = T * (array.length / T) + T :=
        Nat.mul_succ T _
      omega
    rw [h1, Nat.mul_add_div (by omega),
      Nat.div_eq_of_lt (show array.length % T - 1 < T by omega)]
  have hfloor : array.length % T = 0 →
      (array.length + T - 1) / T = array.length / T := by
    intro hr
    have h1 : array.length + T - 1 = T * (array.length / T) + (T - 1) := by
      have h2 := Nat.div_add_mod array.length T
      omega
    rw [h1, Nat.mul_add_div (by omega),
      Nat.div_eq_of_lt (show T - 1 < T by omega)]
    omega
  refine ⟨?_, ?_, ?_, by decide⟩
  · intro c hc
    rcases hmem c hc with h | ⟨h, hr⟩
    · exact Or.inl h
    · exact Or.inr (by rw [hceil hr]; exact h)
  · have : List.Chain' (fun a b : Nat => b ≤ a)
        ((splitArrayToNChunks array T).map List.length) := by
      rw [hsizes]
      apply List.Pairwise.chain'
      rw [List.pairwise_append]
      refine ⟨?_, ?_, ?_⟩
      · rw [List.pairwise_replicate]; right; omega
      · rw [List.pairwise_replicate]; right; omega
      · intro a ha b hb
        rw [List.eq_of_mem_replicate ha, List.eq_of_mem_replicate hb]
        omega
    rw [List.chain'_map] at this
    exact this
  · intro c hc d hd
    rcases hmem c hc with h1 | ⟨h1, _⟩ <;> rcases hmem d hd with h2 | ⟨h2, _⟩ <;>
      omega

theorem splitArrayToNChunks_balance_witness :
    1 ≤ 3 ∧
      ((∀ c ∈ splitArrayToNChunks [1, 2, 3, 4, 5] 3,
          c.length = ([1, 2, 3, 4, 5] : List Nat).length / 3 ∨
            c.length = (([1, 2, 3, 4, 5] : List Nat).length + 3 - 1) / 3) ∧
        List.Chain' (fun a b : List Nat => b.length ≤ a.length)
          (splitArrayToNChunks [1, 2, 3, 4, 5] 3) ∧
        (∀ c ∈ splitArrayToNChunks [1, 2, 3, 4, 5] 3,
          ∀ d ∈ splitArrayToNChunks [1, 2, 3, 4, 5] 3, c.length ≤ d.length + 1) ∧
        splitArrayToNChunks [1, 2, 3, 4, 5] 3 = [[1, 2], [3, 4], [5]]) :=
  ⟨by decide, splitArrayToNChunks_balance Nat [1, 2, 3, 4, 5] 3 (by decide)⟩

/-! ### Splitting on spaces and joining token lists -/

theorem splitOnSp_ne_nil : ∀ l : List Char, splitOnSp l ≠ [] := by
  intro l
  induction l with
  | nil => simp [splitOnSp]
  | cons c rest ih =>
    simp only [splitOnSp]
    split
    · simp
    · split <;> simp

theorem splitOnSp_no_space : ∀ t : List Char, (∀ c ∈ t, c ≠ ' ') →
    splitOnSp t = [t] := by
  intro t
  induction t with
  | nil => intro _; rfl
  | cons c rest ih =>
    intro h
    have hc : c ≠ ' ' := h c (by simp)
    have hrest := ih fun x hx => h x (by simp [hx])
    simp only [splitOnSp, if_neg hc, hrest]

theorem splitOnSp_token_append : ∀ (t r : List Char), (∀ c ∈ t, c ≠ ' ') →
    splitOnSp (t ++ ' ' :: r) = t :: splitOnSp r := by
  intro t
  induction t with
  | nil =>
    intro r _
    simp [splitOnSp]
  | cons c t2 ih =>
    intro r h
    have hc : c ≠ ' ' := h c (by simp)
    have ht2 := ih r fun x hx => h x (by simp [hx])
    have hstep : splitOnSp ((c :: t2) ++ ' ' :: r) =
        if c = ' ' then [] :: splitOnSp (t2 ++ ' ' :: r)
        else
          match splitOnSp (t2 ++ ' ' :: r) with
          | t :: ts => (c :: t) :: ts
          | [] => [[c]] := rfl
    rw [hstep, if_neg hc, ht2]

theorem splitOnSp_joinTokens : ∀ ts : List (List Char), ts ≠ [] →
    (∀ t ∈ ts, ∀ c ∈ t, c ≠ ' ') → splitOnSp (joinTokens ts) = ts := by
  intro ts
  induction ts with
  | nil => intro h _; exact absurd rfl h
  | cons t ts2 ih =>
    intro _ h
    rcases ts2 with _ | ⟨t2, ts3⟩
    · exact splitOnSp_no_space t (h t (by simp))
    · have hjoin : joinTokens (t :: t2 :: ts3) = t ++ ' ' :: joinTokens (t2 :: ts3) :=
        rfl
      rw [hjoin, splitOnSp_token_append t _ (h t (by simp)),
        ih (by simp) fun u hu => h u (by simp [hu])]

theorem joinTokens_ne_nil : ∀ ts : List (List Char), ts ≠ [] →
    (∀ t ∈ ts, t ≠ []) → joinTokens ts ≠ [] := by
  intro ts hne h
  rcases ts with _ | ⟨t, _ | ⟨t2, ts3⟩⟩
  · exact absurd rfl hne
  · exact h t (by simp)
  · show t ++ ' ' :: joinTokens (t2 :: ts3) ≠ []
    simp

/-! ### Frequency-table bookkeeping: `bump` and `countSequences` -/

theorem sumCounts_map_incr : ∀ (m : List (List Char × Nat)) (k : List Char),
    (m.map Prod.fst).Nodup → (∃ v, (k, v) ∈ m) →
    sumCounts (m.map fun p => if p.1 = k then (p.1, p.2 + 1) else p) =
      sumCounts m + 1 := by
  intro m k
  induction m with
  | nil => rintro _ ⟨v, hv⟩; cases hv
  | cons p rest ih =>
    rintro hnd ⟨v, hv⟩
    have hnd2 : (p.1 ∉ rest.map Prod.fst) ∧ (rest.map Prod.fst).Nodup := by
      rw [List.map_cons, List.nodup_cons] at hnd
      exact hnd
    by_cases hpk : p.1 = k
    · have hrest_id :
          (rest.map fun q => if q.1 = k then (q.1, q.2 + 1) else q) = rest := by
        have hpt : ∀ q ∈ rest, (if q.1 = k then (q.1, q.2 + 1) else q) = q := by
          intro q hq
          have hqk : q.1 ≠ k := by
            intro hqk
            exact hnd2.1 (by
              rw [hpk, ← hqk]
              exact List.mem_map_of_mem Prod.fst hq)
          simp [hqk]
        rw [List.map_congr_left hpt, List.map_id']
      simp only [List.map_cons, if_pos hpk, hrest_id, sumCounts]
      simp
      omega
    · have hv2 : (k, v) ∈ rest := by
        rcases List.mem_cons.mp hv with h | h
        · exact absurd (congrArg Prod.fst h).symm hpk
        · exact h
      have := ih hnd2.2 ⟨v, hv2⟩
      simp only [List.map_cons, if_neg hpk, sumCounts, List.map_cons,
        List.sum_cons] at this ⊢
      omega

theorem bump_sum (m : List (List Char × Nat)) (k : List Char)
    (h : KeysNodup m) : sumCounts (bump m k) = sumCounts m + 1 := by
  unfold bump
  by_cases hany : (m.any fun p => decide (p.1 = k)) = true
  · rw [if_pos hany]
    obtain ⟨p, hp, hpk⟩ := List.any_eq_true.mp hany
    have hpk2 : p.1 = k := of_decide_eq_true hpk
    exact sumCounts_map_incr m k h ⟨p.2, by rw [← hpk2]; exact hp⟩
  · rw [if_neg hany]
    simp [sumCounts]

theorem bump_keysNodup (m : List (List Char × Nat)) (k : List Char)
    (h : KeysNodup m) : KeysNodup (bump m k) := by
  unfold bump KeysNodup
  by_cases hany : (m.any fun p => decide (p.1 = k)) = true
  · rw [if_pos hany]
    have hkeys : ((m.map fun p => if p.1 = k then (p.1, p.2 + 1) else p).map
        Prod.fst) = m.map Prod.fst := by
      rw [List.map_map]
      apply List.map_congr_left
      intro p _
      by_cases hpk : p.1 = k <;> simp [hpk]
    rw [hkeys]
    exact h
  · rw [if_neg hany]
    have hnotmem : k ∉ m.map Prod.fst := by
      intro hk
      obtain ⟨p, hp, hpk⟩ := List.mem_map.mp hk
      exact hany (List.any_eq_true.mpr ⟨p, hp, decide_eq_true hpk⟩)
    simp only [List.map_append, List.map_cons, List.map_nil]
    rw [List.nodup_append]
    refine ⟨h, List.nodup_singleton k, ?_⟩
    intro a ha hak
    rw [List.mem_singleton] at hak
    subst hak
    exact hnotmem ha

theorem countSequences_spec : ∀ (n : Nat) (ws : List (List Char))
    (m : List (List Char × Nat)), ws.length ≤ n → KeysNodup m →
    KeysNodup (countSequences m ws) ∧
      sumCounts (countSequences m ws) = sumCounts m + (ws.length - 2) := by
  intro n
  induction n with
  | zero =>
    intro ws m hlen hm
    have : ws = [] := List.length_eq_zero.mp (by omega)
    subst this
    exact ⟨hm, by simp [countSequences]⟩
  | succ n ih =>
    intro ws m hlen hm
    rcases ws with _ | ⟨a, _ | ⟨b, _ | ⟨c, rest⟩⟩⟩
    · exact ⟨hm, by simp [countSequences]⟩
    · exact ⟨hm, by simp [countSequences]⟩
    · exact ⟨hm, by simp [countSequences]⟩
    · have hrec : countSequences m (a :: b :: c :: rest) =
        countSequences (bump m (a ++ ' ' :: b ++ ' ' :: c)) (b :: c :: rest) := rfl
      have hm2 := bump_keysNodup m (a ++ ' ' :: b ++ ' ' :: c) hm
      have hsum := bump_sum m (a ++ ' ' :: b ++ ' ' :: c) hm
      have := ih (b :: c :: rest) (bump m (a ++ ' ' :: b ++ ' ' :: c))
        (by simp at hlen ⊢; omega) hm2
      refine ⟨by rw [hrec]; exact this.1, ?_⟩
      rw [hrec, this.2, hsum]
      simp
      omega

/-- Claim C1: for every Normalized Text input with token count L,
`generateSequenceMap` returns a frequency table whose counts sum to exactly
`max(0, L − 2)` (natural-number subtraction `L - 2` below); in particular empty
input yields an empty table and an input of exactly 3 tokens yields a table
with one entry of count 1. -/
theorem generateSequenceMap_total_count (LM : Char → Bool) (low : Char → Char)
    (l : List Char) (HLM : ∀ c, LM c = true → isJsSpace c = false)
    (hnorm : NormalizedText LM low l) :
    sumCounts (generateSequenceMap l) = tokenCount l - 2 ∧
      (l = [] → generateSequenceMap l = []) ∧
      (tokenCount l = 3 →
        ∃ k, generateSequenceMap l = [(k, 1)]) := by
  obtain ⟨ts, hts, _, rfl⟩ := hnorm
  have hnosp : ∀ t ∈ ts, ∀ c ∈ t, c ≠ ' ' := by
    intro t ht c hc
    rcases (hts t ht).2 c hc with ⟨hLM | h' | h', _⟩
    · intro hsp
      have := HLM c hLM
      rw [hsp] at this
      simp [isJsSpace] at this
    · rw [h']; decide
    · rw [h']; decide
  have hne : ∀ t ∈ ts, t ≠ [] := fun t ht => (hts t ht).1
  refine ⟨?_, ?_, ?_⟩
  · rcases hts2 : ts with _ | ⟨t, ts2⟩
    · show sumCounts (generateSequenceMap []) = tokenCount [] - 2
      decide
    · rw [← hts2]
      have hsplit := splitOnSp_joinTokens ts (by rw [hts2]; simp) hnosp
      have hjne : joinTokens ts ≠ [] :=
        joinTokens_ne_nil ts (by rw [hts2]; simp) hne
      have hcount : tokenCount (joinTokens ts) = ts.length := by
        rw [tokenCount, if_neg hjne, hsplit]
      rw [hcount, generateSequenceMap, hsplit]
      have := countSequences_spec ts.length ts [] le_rfl (by simp [KeysNodup])
      rw [this.2]
      simp [sumCounts]
  · intro h
    rw [h]
    decide
  · intro h3
    have hjne : joinTokens ts ≠ [] := by
      intro h
      rw [h] at h3
      simp [tokenCount] at h3
    have hts_ne : ts ≠ [] := by
      intro h
      rw [h] at hjne
      exact hjne rfl
    have hsplit := splitOnSp_joinTokens ts hts_ne hnosp
    have hlen : ts.length = 3 := by
      rw [tokenCount, if_neg hjne, hsplit] at h3
      exact h3
    rcases ts with _ | ⟨a, _ | ⟨b, _ | ⟨c, _ | ⟨d, rest⟩⟩⟩⟩ <;> simp at hlen
    refine ⟨a ++ ' ' :: b ++ ' ' :: c, ?_⟩
    rw [generateSequenceMap, hsplit]
    rfl

theorem generateSequenceMap_total_count_witness :
    (∀ c, (fun _ : Char => false) c = true → isJsSpace c = false) ∧
      NormalizedText (fun _ => false) (fun c => c) ['-', ' ', '-', ' ', '-'] ∧
      (sumCounts (generateSequenceMap ['-', ' ', '-', ' ', '-']) =
          tokenCount ['-', ' ', '-', ' ', '-'] - 2 ∧
        (['-', ' ', '-', ' ', '-'] = ([] : List Char) →
          generateSequenceMap ['-', ' ', '-', ' ', '-'] = []) ∧
        (tokenCount ['-', ' ', '-', ' ', '-'] = 3 →
          ∃ k, generateSequenceMap ['-', ' ', '-', ' ', '-'] = [(k, 1)])) := by
  have h1 : ∀ c, (fun _ : Char => false) c = true → isJsSpace c = false := by
    intro c h
    simp at h
  have h2 : NormalizedText (fun _ => false) (fun c => c) ['-', ' ', '-', ' ', '-'] := by
    refine ⟨[['-'], ['-'], ['-']], ?_, ?_, rfl⟩
    · intro t ht
      simp only [List.mem_cons, List.not_mem_nil, or_false] at ht
      rcases ht with rfl | rfl | rfl <;>
        exact ⟨by simp, by intro c hc; simp at hc; subst hc; simp [GoodToken]⟩
    · exact ⟨by decide, trivial⟩
  exact ⟨h1, h2, generateSequenceMap_total_count _ _ _ h1 h2⟩

/-! ### Ranker -/

theorem count_eq_one_of_nodup_mem : ∀ (l : List (List Char)) (k : List Char),
    l.Nodup → k ∈ l → l.count k = 1 := by
  intro l k
  induction l with
  | nil => intro _ hk; cases hk
  | cons a l ih =>
    intro hnd hk
    rw [List.count_cons]
    rcases List.mem_cons.mp hk with rfl | hk2
    · have hout : k ∉ l := (List.nodup_cons.mp hnd).1
      rw [List.count_eq_zero.mpr hout]
      simp
    · have ha : a ≠ k := by
        intro h
        subst h
        exact (List.nodup_cons.mp hnd).1 hk2
      rw [ih (List.nodup_cons.mp hnd).2 hk2]
      simp [ha]

/-- Claim C4: for every frequency table, `getTopSequences` returns a list in
which every key of the table appears exactly once, whose length equals the
table's size, and in which every adjacent pair `(a, b)` satisfies
`count(a) ≥ count(b)` (counts sorted descending; tie order unspecified). -/
theorem getTopSequences_ranking (m : List (List Char × Nat)) (h : KeysNodup m) :
    (getTopSequences m).length = m.length ∧
      (∀ k ∈ m.map Prod.fst, ((getTopSequences m).map Prod.fst).count k = 1) ∧
      List.Chain' (fun a b : List Char × Nat => b.2 ≤ a.2) (getTopSequences m) := by
  have hperm : List.Perm (getTopSequences m) m := List.mergeSort_perm m _
  refine ⟨hperm.length_eq, ?_, ?_⟩
  · intro k hk
    have hpermf : List.Perm ((getTopSequences m).map Prod.fst)
        (m.map Prod.fst) :=
      hperm.map Prod.fst
    have hnd : ((getTopSequences m).map Prod.fst).Nodup :=
      hpermf.nodup_iff.mpr h
    have hmem : k ∈ (getTopSequences m).map Prod.fst := hpermf.mem_iff.mpr hk
    exact count_eq_one_of_nodup_mem _ k hnd hmem
  · have htrans : ∀ a b c : List Char × Nat,
        decide (b.2 ≤ a.2) → decide (c.2 ≤ b.2) → decide (c.2 ≤ a.2) := by
      intro a b c hab hbc
      simp only [decide_eq_true_eq] at hab hbc ⊢
      omega
    have htotal : ∀ a b : List Char × Nat,
        (decide (b.2 ≤ a.2) || decide (a.2 ≤ b.2)) = true := by
      intro a b
      simp only [Bool.or_eq_true, decide_eq_true_eq]
      omega
    have hp := @List.sorted_mergeSort (List Char × Nat)
      (fun a b => decide (b.2 ≤ a.2)) htrans htotal m
    have hp2 : List.Pairwise (fun a b : List Char × Nat => b.2 ≤ a.2)
        (getTopSequences m) :=
      hp.imp fun hab => of_decide_eq_true hab
    exact hp2.chain'

theorem getTopSequences_ranking_witness :
    KeysNodup [(['a'], 1), (['b'], 2)] ∧
      ((getTopSequences [(['a'], 1), (['b'], 2)]).length =
          ([(['a'], 1), (['b'], 2)] : List (List Char × Nat)).length ∧
        (∀ k ∈ ([(['a'], 1), (['b'], 2)] : List (List Char × Nat)).map Prod.fst,
          ((getTopSequences [(['a'], 1), (['b'], 2)]).map Prod.fst).count k = 1) ∧
        List.Chain' (fun a b : List Char × Nat => b.2 ≤ a.2)
          (getTopSequences [(['a'], 1), (['b'], 2)])) :=
  ⟨by unfold KeysNodup; decide,
    getTopSequences_ranking [(['a'], 1), (['b'], 2)] (by unfold KeysNodup; decide)⟩

/-! ### Coordinator mode selection -/

/-- Claim C5 counterexample: with explicit files and a supplied worker count
equal to 1, the coordinator selects Multi-file-as-N mode, not Single-file-as-one
as the claim states — `main` (src/index.js:52) tests only the truthiness of
`argv.threads`, not whether it exceeds 1. -/
theorem selectMode_threads_one_counterexample :
    selectMode [] (some [['a', '.', 't', 'x', 't']]) (some (some 1)) =
        Except.ok Mode.multiFile ∧
      Except.ok Mode.multiFile ≠ (Except.ok Mode.singleFile : Except String Mode) := by
  constructor
  · rfl
  · simp

/-- Claim C5 amended: given a non-empty explicit file list, Multi-file-as-N mode
is selected exactly when the supplied worker count is truthy (numeric, non-`NaN`
and nonzero — including 1, fractional and negative counts), and
Single-file-as-one mode exactly when the count is absent, `NaN` or zero; Stream
mode is selected exactly when no files and no positional input are given, or the
file list is present but empty. -/
theorem selectMode_characterization (positional : List (List Char))
    (files : Option (List (List Char))) (threads : Option (Option ℚ)) :
    (selectMode positional files threads = Except.ok Mode.multiFile ↔
      (∃ l, files = some l ∧ l ≠ [] ∧ numTruthy threads = true)) ∧
      (selectMode positional files threads = Except.ok Mode.singleFile ↔
        (∃ l, files = some l ∧ l ≠ [] ∧ numTruthy threads = false)) ∧
      (selectMode positional files threads = Except.ok Mode.streamIn ↔
        ((files = none ∧ positional = []) ∨ files = some [])) := by
  rcases files with _ | l
  · rcases positional with _ | ⟨p, ps⟩
    · refine ⟨?_, ?_, ?_⟩ <;> simp [selectMode]
    · refine ⟨?_, ?_, ?_⟩ <;> simp [selectMode]
  · rcases l with _ | ⟨f, fs⟩
    · refine ⟨?_, ?_, ?_⟩ <;> simp [selectMode]
    · rcases hnum : numTruthy threads
      · refine ⟨?_, ?_, ?_⟩ <;> simp [selectMode, hnum]
      · refine ⟨?_, ?_, ?_⟩ <;> simp [selectMode, hnum]

/-- Claim C10: a supplied worker count of 0.4 (truthy, non-`NaN`, rounding to 0)
together with a non-empty file list selects Multi-file-as-N mode with an
effective `THREAD_COUNT` of 0; the partitioner then returns zero chunks, so the
run starts no workers, reads no files (the conclusion holds for every `read`,
including one that always fails), produces no results, and accumulates no
invalid files, so the invalid-file report is not shown. -/
theorem zero_thread_count_no_processing :
    selectMode [] (some [['a', '.', 't', 'x', 't']]) (some (some (2 / 5))) =
        Except.ok Mode.multiFile ∧
      threadCount (some (some (2 / 5))) 8 = 0 ∧
      splitArrayToNChunksInt [['a', '.', 't', 'x', 't']] 0 = [] ∧
      (∀ (read : List Char → Option (List Char)) (LM : Char → Bool)
          (low : Char → Char),
        processFilesInParallel read LM low [['a', '.', 't', 'x', 't']] 0 =
          some ([], [])) ∧
      invalidReportShown [] = false := by
  have hfl : jsRound (2 / 5) = 0 := by
    rw [jsRound]
    norm_num
  have htc : threadCount (some (some (2 / 5))) 8 = 0 := by
    show (if (2 / 5 : ℚ) ≠ 0 then min (jsRound (2 / 5)) 8 else 1) = 0
    rw [if_pos (by norm_num), hfl]
    decide
  have hsel : selectMode [] (some [['a', '.', 't', 'x', 't']])
      (some (some (2 / 5))) = Except.ok Mode.multiFile := by
    have hnum : numTruthy (some (some (2 / 5))) = true := by
      show decide ((2 / 5 : ℚ) ≠ 0) = true
      rw [decide_eq_true_eq]
      norm_num
    simp [selectMode, hnum]
  exact ⟨hsel, htc, rfl, fun read LM low => rfl, rfl⟩

/-! ### Whitespace invariants of the normalizer -/

theorem wsRun_wsIsSpace : ∀ (l : List Char) (b : Bool),
    ∀ c ∈ wsRun b l, isJsSpace c = true → c = ' ' := by
  intro l
  induction l with
  | nil => intro b c hc; cases hc
  | cons a rest ih =>
    intro b c hc
    by_cases ha : isJsSpace a = true
    · rcases b with _ | _
      · rw [show wsRun false (a :: rest) = ' ' :: wsRun true rest by
          simp [wsRun, ha]] at hc
        rcases List.mem_cons.mp hc with rfl | hc2
        · intro _; rfl
        · exact ih true c hc2
      · rw [show wsRun true (a :: rest) = wsRun true rest by
          simp [wsRun, ha]] at hc
        exact ih true c hc
    · rw [show wsRun b (a :: rest) = a :: wsRun false rest by
        simp [wsRun, ha]] at hc
      rcases List.mem_cons.mp hc with rfl | hc2
      · intro h; exact absurd h ha
      · exact ih false c hc2

theorem wsRun_true_head : ∀ (l : List Char) (x : Char),
    (wsRun true l).head? = some x → isJsSpace x = false := by
  intro l
  induction l with
  | nil => intro x hx; cases hx
  | cons a rest ih =>
    intro x hx
    by_cases ha : isJsSpace a = true
    · rw [show wsRun true (a :: rest) = wsRun true rest by simp [wsRun, ha]] at hx
      exact ih x hx
    · rw [show wsRun true (a :: rest) = a :: wsRun false rest by
        simp [wsRun, ha]] at hx
      cases hx
      exact eq_false_of_ne_true ha

theorem wsRun_chain : ∀ (l : List Char) (b : Bool),
    List.Chain' (fun a c => ¬(isJsSpace a = true ∧ isJsSpace c = true))
      (wsRun b l) := by
  intro l
  induction l with
  | nil => intro b; exact List.chain'_nil
  | cons a rest ih =>
    intro b
    by_cases ha : isJsSpace a = true
    · rcases b with _ | _
      · rw [show wsRun false (a :: rest) = ' ' :: wsRun true rest by
          simp [wsRun, ha]]
        rw [List.chain'_cons']
        refine ⟨?_, ih true⟩
        intro y hy
        have := wsRun_true_head rest y hy
        intro hcon
        rw [this] at hcon
        exact absurd hcon.2 (by simp)
      · rw [show wsRun true (a :: rest) = wsRun true rest by simp [wsRun, ha]]
        exact ih true
    · rw [show wsRun b (a :: rest) = a :: wsRun false rest by simp [wsRun, ha]]
      rw [List.chain'_cons']
      refine ⟨?_, ih false⟩
      intro y _ hcon
      exact absurd hcon.1 ha

theorem exists_dropWhile_append (p : Char → Bool) :
    ∀ l : List Char, ∃ t, t ++ l.dropWhile p = l := by
  intro l
  induction l with
  | nil => exact ⟨[], rfl⟩
  | cons a rest ih =>
    by_cases ha : p a = true
    · obtain ⟨t, ht⟩ := ih
      exact ⟨a :: t, by simp [List.dropWhile_cons, ha, ht]⟩
    · exact ⟨[], by simp [List.dropWhile_cons, ha]⟩

theorem dropWhile_head_not (p : Char → Bool) :
    ∀ (l : List Char) (x : Char), (l.dropWhile p).head? = some x → p x = false := by
  intro l
  induction l with
  | nil => intro x hx; cases hx
  | cons a rest ih =>
    intro x hx
    by_cases ha : p a = true
    · rw [List.dropWhile_cons, if_pos ha] at hx
      exact ih x hx
    · rw [List.dropWhile_cons, if_neg ha] at hx
      cases hx
      exact eq_false_of_ne_true ha

theorem head?_append_left {α : Type} : ∀ (a b : List α) (x : α),
    a.head? = some x → (a ++ b).head? = some x := by
  intro a b x hx
  cases a with
  | nil => cases hx
  | cons c rest => exact hx

theorem jsTrim_decomp : ∀ l : List Char,
    ∃ t2, jsTrim l ++ t2 = l.dropWhile isJsSpace := by
  intro l
  obtain ⟨t, ht⟩ :=
    exists_dropWhile_append isJsSpace (l.dropWhile isJsSpace).reverse
  refine ⟨t.reverse, ?_⟩
  rw [jsTrim]
  rw [← List.reverse_append, ht, List.reverse_reverse]

theorem jsTrim_head : ∀ (l : List Char) (x : Char),
    (jsTrim l).head? = some x → isJsSpace x = false := by
  intro l x hx
  obtain ⟨t2, ht2⟩ := jsTrim_decomp l
  exact dropWhile_head_not isJsSpace l x (ht2 ▸ head?_append_left _ t2 x hx)

theorem jsTrim_last : ∀ (l : List Char) (x : Char),
    (jsTrim l).getLast? = some x → isJsSpace x = false := by
  intro l x hx
  rw [jsTrim, List.getLast?_reverse] at hx
  exact dropWhile_head_not isJsSpace _ x hx

theorem jsTrim_mem : ∀ (l : List Char) (c : Char), c ∈ jsTrim l → c ∈ l := by
  intro l c hc
  obtain ⟨t2, ht2⟩ := jsTrim_decomp l
  obtain ⟨t, ht⟩ := exists_dropWhile_append isJsSpace l
  rw [← ht, ← ht2]
  simp [hc]

theorem jsTrim_chain {R : Char → Char → Prop} :
    ∀ l : List Char, List.Chain' R l → List.Chain' R (jsTrim l) := by
  intro l hl
  obtain ⟨t, ht⟩ := exists_dropWhile_append isJsSpace l
  have hd : List.Chain' R (l.dropWhile isJsSpace) :=
    (List.chain'_append.mp (ht ▸ hl)).2.1
  obtain ⟨t2, ht2⟩ := jsTrim_decomp l
  exact (List.chain'_append.mp (ht2 ▸ hd)).1

/-- Claim C6 amended: for every input, every classifier `LM` and lowercase table
`low`, the output of `formatText` contains no newline, every whitespace
character in it is a plain space, it has no run of two or more adjacent
whitespace characters, and no leading or trailing whitespace.  The remaining
clause of the original claim — that no standalone apostrophe token surrounded by
whitespace survives — is false; see the counterexample. -/
theorem formatText_whitespace_invariants (LM : Char → Bool) (low : Char → Char)
    (l : List Char) :
    '\n' ∉ formatText LM low l ∧ WsIsSpace (formatText LM low l) ∧
      SpacedOk (formatText LM low l) ∧ NoEdgeWs (formatText LM low l) := by
  have hws : WsIsSpace (formatText LM low l) := by
    intro c hc hcs
    have hc2 : c ∈ collapseWs (collapseApos (removePunct LM (replaceNewlines
        (l.map low)))) := jsTrim_mem _ c hc
    exact wsRun_wsIsSpace _ false c hc2 hcs
  refine ⟨?_, hws, ?_, ?_, ?_⟩
  · intro hc
    have := hws '\n' hc (by decide)
    exact absurd this (by decide)
  · exact jsTrim_chain _ (wsRun_chain _ false)
  · intro c hc
    exact jsTrim_head _ c hc
  · intro c hc
    exact jsTrim_last _ c hc

/-- Claim C6 counterexample: on the input `"a ' ' b"` the normalizer outputs
`"a ' b"`, which still contains a standalone apostrophe with whitespace on both
sides — the global regex `/\s+'\s+/g` consumes the whitespace before the second
apostrophe as part of the first match, so the second dangling apostrophe
survives.  Instantiated with the ASCII letter class and ASCII lowercasing,
which agree with the real Unicode tables on this all-ASCII input. -/
theorem formatText_dangling_apostrophe_counterexample :
    formatText (fun c => c.isAlpha) (fun c => c.toLower)
        ['a', ' ', '\'', ' ', '\'', ' ', 'b'] = ['a', ' ', '\'', ' ', 'b'] ∧
      (formatText (fun c => c.isAlpha) (fun c => c.toLower)
          ['a', ' ', '\'', ' ', '\'', ' ', 'b'])[1]? = some ' ' ∧
      (formatText (fun c => c.isAlpha) (fun c => c.toLower)
          ['a', ' ', '\'', ' ', '\'', ' ', 'b'])[2]? = some '\'' ∧
      (formatText (fun c => c.isAlpha) (fun c => c.toLower)
          ['a', ' ', '\'', ' ', '\'', ' ', 'b'])[3]? = some ' ' := by
  decide

/-! ### The normalizer fixes Normalized Text -/

theorem goodToken_not_ws (LM : Char → Bool) (low : Char → Char)
    (HLM : ∀ c, LM c = true → isJsSpace c = false) (t : List Char)
    (h : GoodToken LM low t) : ∀ c ∈ t, isJsSpace c = false := by
  intro c hc
  rcases (h.2 c hc).1 with hL | h' | h'
  · exact HLM c hL
  · rw [h']; decide
  · rw [h']; decide

theorem joinTokens_chars : ∀ (ts : List (List Char)) (c : Char),
    c ∈ joinTokens ts → c = ' ' ∨ ∃ t ∈ ts, c ∈ t := by
  intro ts
  induction ts with
  | nil => intro c hc; cases hc
  | cons t ts2 ih =>
    intro c hc
    rcases ts2 with _ | ⟨t2, ts3⟩
    · exact Or.inr ⟨t, by simp, hc⟩
    · rw [show joinTokens (t :: t2 :: ts3) = t ++ ' ' :: joinTokens (t2 :: ts3)
        from rfl] at hc
      rcases List.mem_append.mp hc with h | h
      · exact Or.inr ⟨t, by simp, h⟩
      · rcases List.mem_cons.mp h with rfl | h2
        · exact Or.inl rfl
        · rcases ih c h2 with h3 | ⟨u, hu, hcu⟩
          · exact Or.inl h3
          · exact Or.inr ⟨u, by simp [hu], hcu⟩

theorem map_id_of_mem {f : Char → Char} :
    ∀ l : List Char, (∀ c ∈ l, f c = c) → l.map f = l := by
  intro l h
  rw [List.map_congr_left h, List.map_id']

theorem apoRun_scan_append_nonws : ∀ (t r : List Char),
    (∀ c ∈ t, isJsSpace c = false) →
    apoRun .scan (t ++ r) = t ++ apoRun .scan r := by
  intro t
  induction t with
  | nil => intro r _; rfl
  | cons c t2 ih =>
    intro r h
    have hc : ¬(isJsSpace c = true) := by simp [h c (by simp)]
    rw [show apoRun .scan ((c :: t2) ++ r) =
        if isJsSpace c then apoRun (.ws [c]) (t2 ++ r)
        else c :: apoRun .scan (t2 ++ r) from rfl,
      if_neg hc, ih r fun x hx => h x (by simp [hx])]
    rfl

theorem apoRun_scan_sep : ∀ (t r : List Char),
    (∀ c ∈ t, isJsSpace c = false) → t ≠ [] → (t = ['\''] → r = []) →
    apoRun .scan (' ' :: (t ++ r)) = ' ' :: (t ++ apoRun .scan r) := by
  intro t r hnws hne hapos
  have hsp : (isJsSpace ' ' = true) := by decide
  rcases t with _ | ⟨q, t2⟩
  · exact absurd rfl hne
  have hq : ¬(isJsSpace q = true) := by simp [hnws q (by simp)]
  rw [show apoRun .scan (' ' :: ((q :: t2) ++ r)) =
      apoRun (.ws [' ']) ((q :: t2) ++ r) by simp [apoRun, hsp]]
  by_cases hq' : q = '\''
  · subst hq'
    rw [show apoRun (.ws [' ']) (('\'' :: t2) ++ r) =
        apoRun (.quote [' ']) (t2 ++ r) by simp [apoRun, hq]]
    rcases t2 with _ | ⟨c2, t3⟩
    · have hr : r = [] := hapos rfl
      subst hr
      rfl
    · have hc2 : ¬(isJsSpace c2 = true) := by simp [hnws c2 (by simp)]
      rw [show apoRun (.quote [' ']) ((c2 :: t3) ++ r) =
          [' '].reverse ++ '\'' :: c2 :: apoRun .scan (t3 ++ r) by
            simp [apoRun, hc2]]
      rw [apoRun_scan_append_nonws t3 r fun x hx => hnws x (by simp [hx])]
      rfl
  · rw [show apoRun (.ws [' ']) ((q :: t2) ++ r) =
        [' '].reverse ++ q :: apoRun .scan (t2 ++ r) by simp [apoRun, hq, hq']]
    rw [apoRun_scan_append_nonws t2 r fun x hx => hnws x (by simp [hx])]
    rfl

theorem apoRun_scan_tail : ∀ ts : List (List Char), ts ≠ [] →
    (∀ t ∈ ts, (∀ c ∈ t, isJsSpace c = false) ∧ t ≠ []) →
    NotAposExceptLast ts →
    apoRun .scan (' ' :: joinTokens ts) = ' ' :: joinTokens ts := by
  intro ts
  induction ts with
  | nil => intro h _ _; exact absurd rfl h
  | cons t ts2 ih =>
    intro _ h hmid
    rcases ts2 with _ | ⟨t2, ts3⟩
    · have hstep := apoRun_scan_sep t [] (h t (by simp)).1 (h t (by simp)).2
        fun _ => rfl
      rw [show joinTokens [t] = t from rfl]
      calc apoRun .scan (' ' :: t)
          = apoRun .scan (' ' :: (t ++ [])) := by rw [List.append_nil]
        _ = ' ' :: (t ++ apoRun .scan []) := hstep
        _ = ' ' :: t := by
            rw [show apoRun .scan [] = ([] : List Char) from rfl,
              List.append_nil]
    · have hne2 : t ≠ ['\''] := by
        rcases hmid with ⟨h1, _⟩
        exact h1
      have hstep := apoRun_scan_sep t (' ' :: joinTokens (t2 :: ts3))
        (h t (by simp)).1 (h t (by simp)).2 fun ht => absurd ht hne2
      rw [show joinTokens (t :: t2 :: ts3) = t ++ ' ' :: joinTokens (t2 :: ts3)
        from rfl, hstep,
        ih (by simp) (fun u hu => h u (by simp [hu])) hmid.2]

theorem collapseApos_joinTokens : ∀ ts : List (List Char),
    (∀ t ∈ ts, (∀ c ∈ t, isJsSpace c = false) ∧ t ≠ []) → MidOk ts →
    collapseApos (joinTokens ts) = joinTokens ts := by
  intro ts h hmid
  rcases ts with _ | ⟨t, _ | ⟨t2, ts3⟩⟩
  · rfl
  · rw [collapseApos, show joinTokens [t] = t from rfl,
      show (t : List Char) = t ++ [] from (List.append_nil t).symm,
      apoRun_scan_append_nonws t [] (h t (by simp)).1]
    rfl
  · rw [collapseApos, show joinTokens (t :: t2 :: ts3) =
      t ++ ' ' :: joinTokens (t2 :: ts3) from rfl,
      apoRun_scan_append_nonws t _ (h t (by simp)).1,
      apoRun_scan_tail (t2 :: ts3) (by simp)
        (fun u hu => h u (by simp [hu])) hmid]

theorem wsRun_false_append_nonws : ∀ (t r : List Char),
    (∀ c ∈ t, isJsSpace c = false) →
    wsRun false (t ++ r) = t ++ wsRun false r := by
  intro t
  induction t with
  | nil => intro r _; rfl
  | cons c t2 ih =>
    intro r h
    have hc : ¬(isJsSpace c = true) := by simp [h c (by simp)]
    rw [show wsRun false ((c :: t2) ++ r) =
        if isJsSpace c then
          if false then wsRun true (t2 ++ r) else ' ' :: wsRun true (t2 ++ r)
        else c :: wsRun false (t2 ++ r) from rfl,
      if_neg hc, ih r fun x hx => h x (by simp [hx])]
    rfl

theorem wsRun_false_sep : ∀ (t r : List Char),
    (∀ c ∈ t, isJsSpace c = false) → t ≠ [] →
    wsRun false (' ' :: (t ++ r)) = ' ' :: (t ++ wsRun false r) := by
  intro t r hnws hne
  have hsp : (isJsSpace ' ' = true) := by decide
  rcases t with _ | ⟨q, t2⟩
  · exact absurd rfl hne
  have hq : ¬(isJsSpace q = true) := by simp [hnws q (by simp)]
  rw [show wsRun false (' ' :: ((q :: t2) ++ r)) =
      ' ' :: wsRun true ((q :: t2) ++ r) by simp [wsRun, hsp]]
  rw [show wsRun true ((q :: t2) ++ r) = q :: wsRun false (t2 ++ r) by
    simp [wsRun, hq]]
  rw [wsRun_false_append_nonws t2 r fun x hx => hnws x (by simp [hx])]
  rfl

theorem wsRun_false_tail : ∀ ts : List (List Char), ts ≠ [] →
    (∀ t ∈ ts, (∀ c ∈ t, isJsSpace c = false) ∧ t ≠ []) →
    wsRun false (' ' :: joinTokens ts) = ' ' :: joinTokens ts := by
  intro ts
  induction ts with
  | nil => intro h _; exact absurd rfl h
  | cons t ts2 ih =>
    intro _ h
    rcases ts2 with _ | ⟨t2, ts3⟩
    · have hstep := wsRun_false_sep t [] (h t (by simp)).1 (h t (by simp)).2
      rw [show joinTokens [t] = t from rfl]
      calc wsRun false (' ' :: t)
          = wsRun false (' ' :: (t ++ [])) := by rw [List.append_nil]
        _ = ' ' :: (t ++ wsRun false []) := hstep
        _ = ' ' :: t := by
            rw [show wsRun false [] = ([] : List Char) from rfl,
              List.append_nil]
    · have hstep := wsRun_false_sep t (' ' :: joinTokens (t2 :: ts3))
        (h t (by simp)).1 (h t (by simp)).2
      rw [show joinTokens (t :: t2 :: ts3) = t ++ ' ' :: joinTokens (t2 :: ts3)
        from rfl, hstep, ih (by simp) fun u hu => h u (by simp [hu])]

theorem collapseWs_joinTokens : ∀ ts : List (List Char),
    (∀ t ∈ ts, (∀ c ∈ t, isJsSpace c = false) ∧ t ≠ []) →
    collapseWs (joinTokens ts) = joinTokens ts := by
  intro ts h
  rcases ts with _ | ⟨t, _ | ⟨t2, ts3⟩⟩
  · rfl
  · rw [collapseWs, show joinTokens [t] = t from rfl,
      show (t : List Char) = t ++ [] from (List.append_nil t).symm,
      wsRun_false_append_nonws t [] (h t (by simp)).1]
    rfl
  · rw [collapseWs, show joinTokens (t :: t2 :: ts3) =
      t ++ ' ' :: joinTokens (t2 :: ts3) from rfl,
      wsRun_false_append_nonws t _ (h t (by simp)).1,
      wsRun_false_tail (t2 :: ts3) (by simp) fun u hu => h u (by simp [hu])]

theorem dropWhile_eq_self_of_head (p : Char → Bool) :
    ∀ l : List Char, (∀ x, l.head? = some x → p x = false) →
    l.dropWhile p = l := by
  intro l h
  cases l with
  | nil => rfl
  | cons c rest =>
    have := h c rfl
    rw [List.dropWhile_cons, if_neg (by simp [this])]

theorem joinTokens_head : ∀ ts : List (List Char),
    (∀ t ∈ ts, (∀ c ∈ t, isJsSpace c = false) ∧ t ≠ []) →
    ∀ x, (joinTokens ts).head? = some x → isJsSpace x = false := by
  intro ts h x hx
  rcases ts with _ | ⟨t, ts2⟩
  · cases hx
  · have hx2 : t.head? = some x := by
      rcases t with _ | ⟨c, t2⟩
      · exact absurd rfl (h [] (by simp)).2
      · rcases ts2 with _ | ⟨t2', ts3⟩
        · exact hx
        · rw [show joinTokens ((c :: t2) :: t2' :: ts3) =
            (c :: t2) ++ ' ' :: joinTokens (t2' :: ts3) from rfl] at hx
          exact hx
    exact (h t (by simp)).1 x (List.mem_of_mem_head? hx2)

theorem joinTokens_last : ∀ ts : List (List Char),
    (∀ t ∈ ts, (∀ c ∈ t, isJsSpace c = false) ∧ t ≠ []) →
    ∀ x, (joinTokens ts).getLast? = some x → isJsSpace x = false := by
  intro ts
  induction ts with
  | nil => intro _ x hx; cases hx
  | cons t ts2 ih =>
    intro h x hx
    rcases ts2 with _ | ⟨t2, ts3⟩
    · exact (h t (by simp)).1 x (List.mem_of_getLast?_eq_some hx)
    · rw [show joinTokens (t :: t2 :: ts3) = t ++ ' ' :: joinTokens (t2 :: ts3)
        from rfl] at hx
      have hjne : joinTokens (t2 :: ts3) ≠ [] :=
        joinTokens_ne_nil (t2 :: ts3) (by simp)
          fun u hu => (h u (by simp [hu])).2
      rw [List.getLast?_append] at hx
      have hlast : (' ' :: joinTokens (t2 :: ts3)).getLast? =
          (joinTokens (t2 :: ts3)).getLast? := by
        rcases hj : joinTokens (t2 :: ts3) with _ | ⟨c, r⟩
        · exact absurd hj hjne
        · exact List.getLast?_cons_cons
      rw [hlast] at hx
      rcases hlx : (joinTokens (t2 :: ts3)).getLast? with _ | y
      · rcases hj : joinTokens (t2 :: ts3) with _ | ⟨c, r⟩
        · exact absurd hj hjne
        · rw [hj] at hlx
          simp [List.getLast?_eq_none_iff] at hlx
      · rw [hlx] at hx
        cases hx
        exact ih (fun u hu => h u (by simp [hu])) x hlx

theorem jsTrim_joinTokens : ∀ ts : List (List Char),
    (∀ t ∈ ts, (∀ c ∈ t, isJsSpace c = false) ∧ t ≠ []) →
    jsTrim (joinTokens ts) = joinTokens ts := by
  intro ts h
  rw [jsTrim, dropWhile_eq_self_of_head _ _ (joinTokens_head ts h)]
  rw [dropWhile_eq_self_of_head _ _ fun x hx => by
    rw [List.head?_reverse] at hx
    exact joinTokens_last ts h x hx]
  exact List.reverse_reverse _

theorem formatText_fixed (LM : Char → Bool) (low : Char → Char)
    (HLM : ∀ c, LM c = true → isJsSpace c = false) (Hlow : low ' ' = ' ')
    (l : List Char) (h : NormalizedText LM low l) : formatText LM low l = l := by
  obtain ⟨ts, htok, hmid, rfl⟩ := h
  have hprops : ∀ t ∈ ts, (∀ c ∈ t, isJsSpace c = false) ∧ t ≠ [] :=
    fun t ht => ⟨goodToken_not_ws LM low HLM t (htok t ht), (htok t ht).1⟩
  have hchar : ∀ c ∈ joinTokens ts,
      c = ' ' ∨ ∃ t, t ∈ ts ∧ c ∈ t := joinTokens_chars ts
  have hlow : (joinTokens ts).map low = joinTokens ts := by
    apply map_id_of_mem
    intro c hc
    rcases hchar c hc with rfl | ⟨t, ht, hct⟩
    · exact Hlow
    · exact ((htok t ht).2 c hct).2
  have hnl : replaceNewlines (joinTokens ts) = joinTokens ts := by
    apply map_id_of_mem
    intro c hc
    have hcn : c ≠ '\n' := by
      rcases hchar c hc with rfl | ⟨t, ht, hct⟩
      · decide
      · intro hcn
        have := (hprops t ht).1 c hct
        rw [hcn] at this
        exact absurd this (by decide)
    simp [hcn]
  have hkeep : removePunct LM (joinTokens ts) = joinTokens ts := by
    apply map_id_of_mem
    intro c hc
    have : keepChar LM c = true := by
      rcases hchar c hc with rfl | ⟨t, ht, hct⟩
      · simp [keepChar]
      · rcases ((htok t ht).2 c hct).1 with hL | h' | h'
        · simp [keepChar, hL]
        · simp [keepChar, h']
        · simp [keepChar, h']
    simp [this]
  rw [formatText, hlow, hnl, hkeep, collapseApos_joinTokens ts hprops hmid,
    collapseWs_joinTokens ts hprops, jsTrim_joinTokens ts hprops]

/-- Claim C7: the Normalizer is idempotent on normalized inputs — for every
string already in normalized form (`NormalizedText`), applying `formatText`
twice gives the same result as applying it once.  (In fact `formatText` fixes
every normalized string.)  The hypotheses on `LM` and `low` are facts of the
real Unicode tables: no letter or mark is whitespace, and lowercasing fixes the
space character. -/
theorem formatText_idempotent_on_normalized (LM : Char → Bool)
    (low : Char → Char) (HLM : ∀ c, LM c = true → isJsSpace c = false)
    (Hlow : low ' ' = ' ') (l : List Char) (h : NormalizedText LM low l) :
    formatText LM low (formatText LM low l) = formatText LM low l := by
  have hfix := formatText_fixed LM low HLM Hlow l h
  rw [hfix, hfix]

theorem formatText_idempotent_on_normalized_witness :
    (∀ c, (fun _ : Char => false) c = true → isJsSpace c = false) ∧
      (fun c : Char => c) ' ' = ' ' ∧
      NormalizedText (fun _ => false) (fun c => c) ['-'] ∧
      formatText (fun _ => false) (fun c => c)
          (formatText (fun _ => false) (fun c => c) ['-']) =
        formatText (fun _ => false) (fun c => c) ['-'] := by
  have h1 : ∀ c, (fun _ : Char => false) c = true → isJsSpace c = false := by
    intro c h
    simp at h
  have h3 : NormalizedText (fun _ => false) (fun c => c) ['-'] := by
    refine ⟨[['-']], ?_, trivial, rfl⟩
    intro t ht
    simp only [List.mem_cons, List.not_mem_nil, or_false] at ht
    subst ht
    refine ⟨by simp, ?_⟩
    intro c hc
    simp only [List.mem_cons, List.not_mem_nil, or_false] at hc
    subst hc
    exact ⟨Or.inr (Or.inr rfl), rfl⟩
  exact ⟨h1, rfl, h3,
    formatText_idempotent_on_normalized _ _ h1 rfl ['-'] h3⟩

/-! ### Concatenation of per-unit normalized texts -/

theorem formatText_unit_props (LM : Char → Bool) (low : Char → Char)
    (x : List Char) :
    WsIsSpace (formatText LM low x) ∧ SpacedOk (formatText LM low x) ∧
      NoEdgeWs (formatText LM low x) :=
  ⟨fun c hc hcs => wsRun_wsIsSpace _ false c (jsTrim_mem _ c hc) hcs,
    jsTrim_chain _ (wsRun_chain _ false),
    ⟨fun c hc => jsTrim_head _ c hc, fun c hc => jsTrim_last _ c hc⟩⟩

theorem foldFiles_eq (LM : Char → Bool) (low : Char → Char) :
    ∀ (files : List (List Char × List Char)) (init : List Char),
      files.foldl (fun acc f =>
          if endsWithTxt f.1 then acc ++ ' ' :: formatText LM low f.2 else acc)
        init =
        init ++ (((files.filter fun f => endsWithTxt f.1).map
          fun f => formatText LM low f.2).map fun f => ' ' :: f).flatten := by
  intro files
  induction files with
  | nil => intro init; simp
  | cons u files2 ih =>
    intro init
    rw [List.foldl_cons]
    by_cases hp : endsWithTxt u.1 = true
    · rw [if_pos hp, ih]
      simp [List.filter_cons, hp, List.append_assoc]
    · rw [if_neg hp, ih]
      simp [List.filter_cons, hp]

theorem foldLines_eq (LM : Char → Bool) (low : Char → Char) :
    ∀ (lines : List (List Char)) (init : List Char),
      lines.foldl (fun acc x => acc ++ ' ' :: formatText LM low x) init =
        init ++ ((lines.map fun x => formatText LM low x).map
          fun f => ' ' :: f).flatten := by
  intro lines
  induction lines with
  | nil => intro init; simp
  | cons u lines2 ih =>
    intro init
    rw [List.foldl_cons, ih]
    simp

theorem units_props : ∀ cs : List (List Char),
    (∀ f ∈ cs, f ≠ [] ∧ WsIsSpace f ∧ SpacedOk f ∧ NoEdgeWs f) →
    WsIsSpace ((cs.map fun f => ' ' :: f).flatten) ∧
      SpacedOk ((cs.map fun f => ' ' :: f).flatten) ∧
      (∀ x, ((cs.map fun f => ' ' :: f).flatten).getLast? = some x →
        isJsSpace x = false) := by
  intro cs
  induction cs with
  | nil =>
    intro _
    exact ⟨fun c hc => absurd hc (List.not_mem_nil c),
      ⟨List.chain'_nil, fun x hx => by cases hx⟩⟩
  | cons f cs2 ih =>
    intro h
    obtain ⟨hfne, hfws, hfch, hfedge⟩ := h f (by simp)
    have ih2 := ih fun u hu => h u (by simp [hu])
    have hflat : ((f :: cs2).map fun f => ' ' :: f).flatten =
        (' ' :: f) ++ (cs2.map fun f => ' ' :: f).flatten := by
      rw [List.map_cons, List.flatten_cons]
    have hlastf : ∀ x, (' ' :: f).getLast? = some x → f.getLast? = some x := by
      intro x hx
      rcases f with _ | ⟨c0, f2⟩
      · exact absurd rfl hfne
      · rw [List.getLast?_cons_cons] at hx
        exact hx
    refine ⟨?_, ?_, ?_⟩
    · intro c hc hcs
      rw [hflat] at hc
      rcases List.mem_append.mp hc with h1 | h1
      · rcases List.mem_cons.mp h1 with rfl | h2
        · rfl
        · exact hfws c h2 hcs
      · exact ih2.1 c h1 hcs
    · rw [hflat]
      show List.Chain' (fun a b => ¬(isJsSpace a = true ∧ isJsSpace b = true))
        ((' ' :: f) ++ (cs2.map fun f => ' ' :: f).flatten)
      rw [List.chain'_append]
      refine ⟨?_, ih2.2.1, ?_⟩
      · rw [List.chain'_cons']
        refine ⟨?_, hfch⟩
        intro y hy hcon
        have hy2 : isJsSpace y = false := hfedge.1 y hy
        rw [hy2] at hcon
        exact absurd hcon.2 (by simp)
      · intro x hx y _ hcon
        have hx2 : isJsSpace x = false := hfedge.2 x (hlastf x hx)
        rw [hx2] at hcon
        exact absurd hcon.1 (by simp)
    · intro x hx
      rw [hflat, List.getLast?_append] at hx
      rcases hr : ((cs2.map fun f => ' ' :: f).flatten).getLast? with _ | y
      · rw [hr] at hx
        simp only [Option.or] at hx
        exact hfedge.2 x (hlastf x hx)
      · rw [hr] at hx
        simp only [Option.or] at hx
        cases hx
        exact ih2.2.2 x hr

theorem splitOnSp_no_empty_aux : ∀ l : List Char,
    List.Chain' (fun a b => ¬(a = ' ' ∧ b = ' ')) l →
    (∀ x, l.getLast? = some x → x ≠ ' ') →
    ((∀ x, l.head? = some x → x ≠ ' ') → l ≠ [] → [] ∉ splitOnSp l) ∧
      [] ∉ (splitOnSp l).tail := by
  intro l
  induction l with
  | nil =>
    intro _ _
    exact ⟨fun _ h => absurd rfl h, by simp [splitOnSp]⟩
  | cons c rest ih =>
    intro hch hlast
    by_cases hc : c = ' '
    · subst hc
      have hsplit : splitOnSp (' ' :: rest) = [] :: splitOnSp rest := by
        simp [splitOnSp]
      constructor
      · intro hhead _
        exact absurd rfl (hhead ' ' rfl)
      · rw [hsplit]
        show [] ∉ splitOnSp rest
        rcases rest with _ | ⟨d, rest2⟩
        · exact absurd rfl (hlast ' ' rfl)
        · have hd : d ≠ ' ' := by
            intro hd
            exact (List.chain'_cons.mp hch).1 ⟨rfl, hd⟩
          have hch2 := (List.chain'_cons.mp hch).2
          have hlast2 : ∀ x, (d :: rest2).getLast? = some x → x ≠ ' ' := by
            intro x hx
            exact hlast x (by rw [List.getLast?_cons_cons]; exact hx)
          exact (ih hch2 hlast2).1
            (fun x hx => by cases hx; exact hd) (by simp)
    · obtain ⟨t, ts, hts⟩ : ∃ t ts, splitOnSp rest = t :: ts := by
        rcases hsp : splitOnSp rest with _ | ⟨t, ts⟩
        · exact absurd hsp (splitOnSp_ne_nil rest)
        · exact ⟨t, ts, rfl⟩
      have hsplit : splitOnSp (c :: rest) = (c :: t) :: ts := by
        rw [show splitOnSp (c :: rest) =
            if c = ' ' then [] :: splitOnSp rest
            else
              match splitOnSp rest with
              | t :: ts => (c :: t) :: ts
              | [] => [[c]] from rfl,
          if_neg hc, hts]
      have hch2 : List.Chain' (fun a b => ¬(a = ' ' ∧ b = ' ')) rest := hch.tail
      have hlast2 : ∀ x, rest.getLast? = some x → x ≠ ' ' := by
        intro x hx
        rcases rest with _ | ⟨d, rest2⟩
        · cases hx
        · exact hlast x (by rw [List.getLast?_cons_cons]; exact hx)
      have ihB : [] ∉ ts := by
        have := (ih hch2 hlast2).2
        rw [hts] at this
        exact this
      constructor
      · intro _ _
        rw [hsplit]
        intro hmem
        rcases List.mem_cons.mp hmem with h | h
        · exact List.cons_ne_nil c t h.symm
        · exact ihB h
      · rw [hsplit]
        exact ihB

theorem joined_out_props : ∀ cs : List (List Char), cs ≠ [] →
    (∀ f ∈ cs, f ≠ [] ∧ WsIsSpace f ∧ SpacedOk f ∧ NoEdgeWs f) →
    WsIsSpace (jsTrim ((cs.map fun f => ' ' :: f).flatten)) ∧
      SpacedOk (jsTrim ((cs.map fun f => ' ' :: f).flatten)) ∧
      NoEdgeWs (jsTrim ((cs.map fun f => ' ' :: f).flatten)) ∧
      [] ∉ splitOnSp (jsTrim ((cs.map fun f => ' ' :: f).flatten)) := by
  intro cs hne h
  obtain ⟨hws, hch, _⟩ := units_props cs h
  have hout_ws : WsIsSpace (jsTrim ((cs.map fun f => ' ' :: f).flatten)) :=
    fun c hc hcs => hws c (jsTrim_mem _ c hc) hcs
  have hout_ch : SpacedOk (jsTrim ((cs.map fun f => ' ' :: f).flatten)) :=
    jsTrim_chain _ hch
  have hout_edge : NoEdgeWs (jsTrim ((cs.map fun f => ' ' :: f).flatten)) :=
    ⟨fun c hc => jsTrim_head _ c hc, fun c hc => jsTrim_last _ c hc⟩
  refine ⟨hout_ws, hout_ch, hout_edge, ?_⟩
  have hout_ne : jsTrim ((cs.map fun f => ' ' :: f).flatten) ≠ [] := by
    rcases cs with _ | ⟨f, cs2⟩
    · exact absurd rfl hne
    obtain ⟨hfne, _, _, hfedge⟩ := h f (by simp)
    obtain ⟨c0, f2, hf⟩ : ∃ c0 f2, f = c0 :: f2 := by
      rcases f with _ | ⟨c0, f2⟩
      · exact absurd rfl hfne
      · exact ⟨c0, f2, rfl⟩
    subst hf
    have hc0 : isJsSpace c0 = false := hfedge.1 c0 rfl
    have hdrop : ((((c0 :: f2) :: cs2).map fun f => ' ' :: f).flatten).dropWhile
        isJsSpace = (c0 :: f2) ++ (cs2.map fun f => ' ' :: f).flatten := by
      rw [List.map_cons, List.flatten_cons]
      rw [show (' ' :: (c0 :: f2)) ++ (cs2.map fun f => ' ' :: f).flatten =
          ' ' :: c0 :: (f2 ++ (cs2.map fun f => ' ' :: f).flatten) from rfl]
      rw [List.dropWhile_cons, if_pos (by decide), List.dropWhile_cons,
        if_neg (by simp [hc0])]
      rfl
    intro hnil
    rw [jsTrim, hdrop, List.reverse_eq_nil_iff] at hnil
    have hall := List.dropWhile_eq_nil_iff.mp hnil
    have hc0mem : c0 ∈
        ((c0 :: f2) ++ (cs2.map fun f => ' ' :: f).flatten).reverse := by
      rw [List.mem_reverse]
      simp
    have hcon := hall c0 hc0mem
    rw [hc0] at hcon
    cases hcon
  have hch2 : List.Chain' (fun a b => ¬(a = ' ' ∧ b = ' '))
      (jsTrim ((cs.map fun f => ' ' :: f).flatten)) := by
    apply hout_ch.imp
    intro a b hab hcon
    rw [hcon.1, hcon.2] at hab
    exact hab ⟨by decide, by decide⟩
  have hhead2 : ∀ x, (jsTrim ((cs.map fun f => ' ' :: f).flatten)).head? =
      some x → x ≠ ' ' := by
    intro x hx hsp
    have := hout_edge.1 x hx
    rw [hsp] at this
    exact absurd this (by decide)
  have hlast2 : ∀ x, (jsTrim ((cs.map fun f => ' ' :: f).flatten)).getLast? =
      some x → x ≠ ' ' := by
    intro x hx hsp
    have := hout_edge.2 x hx
    rw [hsp] at this
    exact absurd this (by decide)
  exact (splitOnSp_no_empty_aux _ hch2 hlast2).1 hhead2 hout_ne

theorem processFilesAsOneText_eq (LM : Char → Bool) (low : Char → Char)
    (files : List (List Char × List Char)) :
    processFilesAsOneText LM low files =
      jsTrim ((((files.filter fun f => endsWithTxt f.1).map
        fun f => formatText LM low f.2).map fun f => ' ' :: f).flatten) := by
  rw [processFilesAsOneText]
  congr 1
  rw [foldFiles_eq LM low files [], List.nil_append]

theorem processStdInText_eq (LM : Char → Bool) (low : Char → Char)
    (lines : List (List Char)) :
    processStdInText LM low lines =
      jsTrim (((lines.map fun x => formatText LM low x).map
        fun f => ' ' :: f).flatten) := by
  rw [processStdInText, foldLines_eq LM low lines [], List.nil_append]

/-- Claim C8 amended: in Single-file-as-one mode and in Stream mode, the
space-joined concatenation passed to the Trigram Counter is Normalized Text —
every whitespace character is a plain space, there is no run of two or more
spaces, no leading or trailing whitespace, and splitting on single spaces
yields no empty token — provided there is at least one valid unit and every
valid unit normalizes to a non-empty string.  (When an interior unit normalizes
to the empty string this fails; see the counterexample.) -/
theorem joinedText_normalized_of_nonempty (LM : Char → Bool) (low : Char → Char)
    (files : List (List Char × List Char)) (lines : List (List Char)) :
    ((files.filter fun f => endsWithTxt f.1) ≠ [] →
      (∀ f ∈ files.filter fun f => endsWithTxt f.1,
        formatText LM low f.2 ≠ []) →
      WsIsSpace (processFilesAsOneText LM low files) ∧
        SpacedOk (processFilesAsOneText LM low files) ∧
        NoEdgeWs (processFilesAsOneText LM low files) ∧
        [] ∉ splitOnSp (processFilesAsOneText LM low files)) ∧
      (lines ≠ [] → (∀ x ∈ lines, formatText LM low x ≠ []) →
        WsIsSpace (processStdInText LM low lines) ∧
          SpacedOk (processStdInText LM low lines) ∧
          NoEdgeWs (processStdInText LM low lines) ∧
          [] ∉ splitOnSp (processStdInText LM low lines)) := by
  constructor
  · intro hne hfmt
    rw [processFilesAsOneText_eq]
    apply joined_out_props
    · intro h
      rw [List.map_eq_nil_iff] at h
      exact hne h
    · intro f hf
      obtain ⟨u, hu, rfl⟩ := List.mem_map.mp hf
      obtain ⟨p1, p2, p3⟩ := formatText_unit_props LM low u.2
      exact ⟨hfmt u hu, p1, p2, p3⟩
  · intro hne hfmt
    rw [processStdInText_eq]
    apply joined_out_props
    · intro h
      rw [List.map_eq_nil_iff] at h
      exact hne h
    · intro f hf
      obtain ⟨u, hu, rfl⟩ := List.mem_map.mp hf
      obtain ⟨p1, p2, p3⟩ := formatText_unit_props LM low u
      exact ⟨hfmt u hu, p1, p2, p3⟩

/-- Claim C8 counterexample: when the middle one of three valid files (or the
middle one of three stdin lines) normalizes to the empty string, the joined
text is `"a  c"`, which contains a run of two spaces, and splitting it on
single spaces yields an empty token.  Instantiated with the ASCII letter class
and ASCII lowercasing, which agree with the real Unicode tables on this
all-ASCII input. -/
theorem joinedText_empty_middle_counterexample :
    processFilesAsOneText (fun c => c.isAlpha) (fun c => c.toLower)
        [(['a', '.', 't', 'x', 't'], ['a']), (['b', '.', 't', 'x', 't'], []),
          (['c', '.', 't', 'x', 't'], ['c'])] = ['a', ' ', ' ', 'c'] ∧
      [] ∈ splitOnSp ['a', ' ', ' ', 'c'] ∧
      processStdInText (fun c => c.isAlpha) (fun c => c.toLower)
        [['a'], [], ['c']] = ['a', ' ', ' ', 'c'] := by
  decide

theorem joinedText_normalized_of_nonempty_witness :
    (([(['a', '.', 't', 'x', 't'], ['a'])].filter
        fun f => endsWithTxt f.1) ≠ [] ∧
      (∀ f ∈ [(['a', '.', 't', 'x', 't'], ['a'])].filter
        fun f => endsWithTxt f.1,
        formatText (fun c => c.isAlpha) (fun c => c.toLower) f.2 ≠ []) ∧
      (WsIsSpace (processFilesAsOneText (fun c => c.isAlpha)
          (fun c => c.toLower) [(['a', '.', 't', 'x', 't'], ['a'])]) ∧
        SpacedOk (processFilesAsOneText (fun c => c.isAlpha)
          (fun c => c.toLower) [(['a', '.', 't', 'x', 't'], ['a'])]) ∧
        NoEdgeWs (processFilesAsOneText (fun c => c.isAlpha)
          (fun c => c.toLower) [(['a', '.', 't', 'x', 't'], ['a'])]) ∧
        [] ∉ splitOnSp (processFilesAsOneText (fun c => c.isAlpha)
          (fun c => c.toLower) [(['a', '.', 't', 'x', 't'], ['a'])]))) ∧
      (([['a']] : List (List Char)) ≠ [] ∧
        (∀ x ∈ ([['a']] : List (List Char)),
          formatText (fun c => c.isAlpha) (fun c => c.toLower) x ≠ []) ∧
        (WsIsSpace (processStdInText (fun c => c.isAlpha)
            (fun c => c.toLower) [['a']]) ∧
          SpacedOk (processStdInText (fun c => c.isAlpha)
            (fun c => c.toLower) [['a']]) ∧
          NoEdgeWs (processStdInText (fun c => c.isAlpha)
            (fun c => c.toLower) [['a']]) ∧
          [] ∉ splitOnSp (processStdInText (fun c => c.isAlpha)
            (fun c => c.toLower) [['a']]))) := by
  have h1 : ([(['a', '.', 't', 'x', 't'], ['a'])].filter
      fun f => endsWithTxt f.1) ≠ [] := by decide
  have h2 : ∀ f ∈ [(['a', '.', 't', 'x', 't'], ['a'])].filter
      fun f => endsWithTxt f.1,
      formatText (fun c => c.isAlpha) (fun c => c.toLower) f.2 ≠ [] := by decide
  have h3 : ([['a']] : List (List Char)) ≠ [] := by decide
  have h4 : ∀ x ∈ ([['a']] : List (List Char)),
      formatText (fun c => c.isAlpha) (fun c => c.toLower) x ≠ [] := by decide
  have hmain := joinedText_normalized_of_nonempty (fun c => c.isAlpha)
    (fun c => c.toLower) [(['a', '.', 't', 'x', 't'], ['a'])] [['a']]
  exact ⟨⟨h1, h2, hmain.1 h1 h2⟩, ⟨h3, h4, hmain.2 h3 h4⟩⟩

end TextSeq
